import Mathlib

/-!
Verification of the SQL layer (schema-aware relational storage over an
ordered transactional KV store).

Modelling conventions:
* Rust `String` / `Vec<u8>` / byte slices are modelled as `List Nat`
  (one entry per byte); Rust string equality is byte equality.
* Rust `f64` values are modelled by their 64-bit pattern as a `Nat`;
  the code never computes with floats, it only stores and compares them.
* Rust `u64` is modelled as `Nat`, `i64` as `Int`; the `as i64` cast is
  modelled exactly (wrap at `2 ^ 63`).
* The Avro codecs and the FoundationDB tuple codec are external to the
  source tree (the Avro schema assets and the `apache_avro` /
  `foundationdb_tuple` crates are not under `src/`); they are modelled
  from the spec as framed, length-delimited, injective binary codecs
  (spec section 4.2 allows "any equivalent framed format").
* Transaction bodies are state-passing functions on the store; commit
  applies the body's resulting store, an error aborts and keeps the
  original store (the KV engine's all-or-nothing contract, spec section 7).
-/

deriving instance DecidableEq for Except

namespace SqlLayer

/-- Byte strings: Rust byte slices / UTF-8 strings, one `Nat` per byte. -/
abbrev ByteStr := List Nat

/-- Helper to write byte strings from Lean string literals in examples. -/
def strBytes (s : String) : ByteStr := s.toList.map Char.toNat

/-! ## Binary codec primitives

Modelled from the spec: the repository serializes schemas, metadata and
rows with Avro (`src/row.rs`, `src/table.rs`, `src/table_metadata.rs`
call into `apache_avro` with schema assets that are not part of the
source tree).  Spec section 4.2 requires only a framed, length-delimited
self-describing format, so we use base-128 varints, length-delimited
byte strings and tagged unions. -/

/-- Base-128 varint encoder; the first argument is fuel (`encNat` passes
the number itself, which always suffices) so the recursion is structural
and kernel-evaluable. -/
def encNatF : Nat → Nat → ByteStr
  | 0, n => [n % 128]
  | fuel + 1, n => if n < 128 then [n] else (n % 128 + 128) :: encNatF fuel (n / 128)

/-- Base-128 varint encoding of a natural number. -/
def encNat (n : Nat) : ByteStr := encNatF n n

/-- Base-128 varint decoder; returns the value and the remaining input. -/
def decNat : ByteStr → Option (Nat × ByteStr)
  | [] => none
  | b :: bs =>
    if b < 128 then some (b, bs)
    else
      match decNat bs with
      | some (m, r) => some (b - 128 + 128 * m, r)
      | none => none

/-- Zigzag mapping of integers onto naturals (Avro's int encoding). -/
def zigzag (i : Int) : Nat := if 0 ≤ i then (2 * i).toNat else (-(2 * i) - 1).toNat

/-- Inverse of `zigzag`. -/
def unzigzag (n : Nat) : Int :=
  if n % 2 = 0 then ((n / 2 : Nat) : Int) else -(((n / 2 : Nat) : Int) + 1)

/-- Encoding of a signed integer. -/
def encInt (i : Int) : ByteStr := encNat (zigzag i)

/-- Decoding of a signed integer. -/
def decInt (bs : ByteStr) : Option (Int × ByteStr) :=
  match decNat bs with
  | some (n, r) => some (unzigzag n, r)
  | none => none

/-- Length-delimited byte-string encoding. -/
def encBytes (b : ByteStr) : ByteStr := encNat b.length ++ b

/-- Length-delimited byte-string decoding. -/
def decBytes (bs : ByteStr) : Option (ByteStr × ByteStr) :=
  match decNat bs with
  | some (k, r) => if k ≤ r.length then some (r.take k, r.drop k) else none
  | none => none

/-- Single-byte boolean encoding. -/
def encBool (b : Bool) : ByteStr := [if b then 1 else 0]

/-- Single-byte boolean decoding. -/
def decBool : ByteStr → Option (Bool × ByteStr)
  | 0 :: r => some (false, r)
  | 1 :: r => some (true, r)
  | _ => none

/-- Concatenated encodings of the items of a list. -/
def encListItems (enc : α → ByteStr) : List α → ByteStr
  | [] => []
  | x :: xs => enc x ++ encListItems enc xs

/-- Length-then-items encoding of a list. -/
def encListWith (enc : α → ByteStr) (l : List α) : ByteStr :=
  encNat l.length ++ encListItems enc l

/-- Decodes exactly `k` items with `dec`. -/
def decListItems (dec : ByteStr → Option (α × ByteStr)) : Nat → ByteStr → Option (List α × ByteStr)
  | 0, bs => some ([], bs)
  | k + 1, bs =>
    match dec bs with
    | some (x, r) =>
      match decListItems dec k r with
      | some (xs, r2) => some (x :: xs, r2)
      | none => none
    | none => none

/-- Length-then-items decoding of a list. -/
def decListWith (dec : ByteStr → Option (α × ByteStr)) (bs : ByteStr) :
    Option (List α × ByteStr) :=
  match decNat bs with
  | some (k, r) => decListItems dec k r
  | none => none

/-! ## Data model (`src/table.rs`, `src/index.rs`, `src/table_metadata.rs`,
`src/row.rs`, `src/record.rs`) -/

/-- `table.rs` `FieldType`. -/
inductive FieldType where
  | String
  | Int
  | Float
  | Bool
  | Bytes
deriving DecidableEq

/-- `table.rs` `Field` (the Rust field `r#type` is called `ty` here,
`type` being reserved in Lean). -/
structure Field where
  name : ByteStr
  ty : FieldType
deriving DecidableEq

/-- `index.rs` `Index`. -/
structure Index where
  name : ByteStr
  fields : List ByteStr
deriving DecidableEq

/-- `table.rs` `Table`. -/
structure Table where
  name : ByteStr
  fields : List Field
  primary_key : List ByteStr
  indexes : List Index
deriving DecidableEq

/-- `Table::get_field_pos`: position of the first field with this name. -/
def Table.get_field_pos (t : Table) (field_name : ByteStr) : Option Nat :=
  t.fields.findIdx? (fun f => f.name == field_name)

/-- `table_metadata.rs` `TableMetadata`. -/
structure TableMetadata where
  name : ByteStr
  max_row_id : Nat
deriving DecidableEq

/-- `TableMetadata::new`: fresh metadata with `max_row_id = 0`. -/
def TableMetadata.new (name : ByteStr) : TableMetadata := ⟨name, 0⟩

/-- `TableMetadata::increment_max_row_id`. -/
def TableMetadata.increment_max_row_id (m : TableMetadata) : TableMetadata :=
  ⟨m.name, m.max_row_id + 1⟩

/-- `TableMetadata::get_current_row_id`. -/
def TableMetadata.get_current_row_id (m : TableMetadata) : Nat := m.max_row_id

/-- `row.rs` `Column`: five optional single-field wrapper records
(`ColumnString(String)` etc.; the newtype wrappers are elided, their
payloads are carried directly). -/
structure RowColumn where
  column_string : Option ByteStr
  column_int : Option Int
  column_float : Option Nat
  column_bool : Option Bool
  column_bytes : Option ByteStr
deriving DecidableEq

/-- `row::Column::new_string`. -/
def RowColumn.new_string (v : ByteStr) : RowColumn := ⟨some v, none, none, none, none⟩

/-- `row::Column::new_int`. -/
def RowColumn.new_int (v : Int) : RowColumn := ⟨none, some v, none, none, none⟩

/-- `row::Column::new_float` (f64 carried as its bit pattern). -/
def RowColumn.new_float (v : Nat) : RowColumn := ⟨none, none, some v, none, none⟩

/-- `row::Column::new_bool`. -/
def RowColumn.new_bool (v : Bool) : RowColumn := ⟨none, none, none, some v, none⟩

/-- `row::Column::new_bytes`. -/
def RowColumn.new_bytes (v : ByteStr) : RowColumn := ⟨none, none, none, none, some v⟩

/-- `row::Column::is_null`: every option is `none`. -/
def RowColumn.null_column (c : RowColumn) : Bool :=
  c.column_bool.isNone && c.column_int.isNone && c.column_float.isNone &&
    c.column_string.isNone && c.column_bytes.isNone

/-- A `row::Column` built by one of the five constructors: exactly one
option is populated.  The Avro row schema (spec section 4.2) represents a
column as a union with "only the variant matching the value present", so
these are the serializable columns. -/
def RowColumn.wfb (c : RowColumn) : Bool :=
  (cond c.column_string.isSome 1 0) + (cond c.column_int.isSome 1 0) +
      (cond c.column_float.isSome 1 0) + (cond c.column_bool.isSome 1 0) +
      (cond c.column_bytes.isSome 1 0) = 1

/-- `row.rs` `Row`: ordered optionally-null columns. -/
structure Row where
  columns : List (Option RowColumn)
deriving DecidableEq

/-- Rows whose present columns all come from the five constructors. -/
def Row.wfb (r : Row) : Bool :=
  r.columns.all fun c =>
    match c with
    | none => true
    | some x => x.wfb

/-- `record.rs` `Column`: the user-facing column value. -/
inductive Column where
  | String (s : ByteStr)
  | Int (i : Int)
  | Float (bits : Nat)
  | Bool (b : Bool)
  | Bytes (bs : ByteStr)
  | Null
deriving DecidableEq

/-- `record.rs` `Record`. -/
structure Record where
  columns : List Column
deriving DecidableEq

/-- `record.rs` `impl From<&Record> for Row`: `Null` becomes a null
column, any other variant goes through `From<&Column> for row::Column`
(whose `Null` arm is unreachable because of the guard). -/
def Record.toRow (r : Record) : Row :=
  ⟨r.columns.map fun c =>
    match c with
    | .Null => none
    | .String s => some (RowColumn.new_string s)
    | .Int i => some (RowColumn.new_int i)
    | .Float f => some (RowColumn.new_float f)
    | .Bool b => some (RowColumn.new_bool b)
    | .Bytes bs => some (RowColumn.new_bytes bs)⟩

/-- `record.rs` `impl From<row::Column> for Column`: the options are
inspected in declaration order, the first populated one wins, an
all-`none` column falls through to `Null`. -/
def RowColumn.toColumn (c : RowColumn) : Column :=
  match c.column_string with
  | some s => .String s
  | none =>
    match c.column_int with
    | some i => .Int i
    | none =>
      match c.column_float with
      | some f => .Float f
      | none =>
        match c.column_bool with
        | some b => .Bool b
        | none =>
          match c.column_bytes with
          | some bs => .Bytes bs
          | none => .Null

/-- `record.rs` `impl From<Row> for Record`. -/
def Row.toRecord (row : Row) : Record :=
  ⟨row.columns.map fun c =>
    match c with
    | some x => x.toColumn
    | none => .Null⟩

/-! ## Serialization of rows, tables and metadata

Modelled from the spec (section 4.2, section 6 "Persisted formats"): the
Avro schema assets and the `apache_avro` crate are not part of the source
tree.  The row is an array of tagged unions `[null] ∪ {one record per
column type}`; the table and metadata records are encoded field by
field. -/

/-- Union encoding of one optional row column: tag 0 is the null branch,
tags 1–5 are the five typed branches in the field order of
`row::Column`.  A non-well-formed column (several options populated)
is encoded by its first populated option; an all-`none` column by the
null branch. -/
def encColOpt : Option RowColumn → ByteStr
  | none => [0]
  | some c =>
    match c.column_string with
    | some s => 1 :: encBytes s
    | none =>
      match c.column_int with
      | some i => 2 :: encInt i
      | none =>
        match c.column_float with
        | some f => 3 :: encNat f
        | none =>
          match c.column_bool with
          | some b => 4 :: encBool b
          | none =>
            match c.column_bytes with
            | some bs => 5 :: encBytes bs
            | none => [0]

/-- Union decoding of one optional row column. -/
def decColOpt : ByteStr → Option (Option RowColumn × ByteStr)
  | [] => none
  | t :: bs =>
    match t with
    | 0 => some (none, bs)
    | 1 =>
      match decBytes bs with
      | some (s, r) => some (some (RowColumn.new_string s), r)
      | none => none
    | 2 =>
      match decInt bs with
      | some (i, r) => some (some (RowColumn.new_int i), r)
      | none => none
    | 3 =>
      match decNat bs with
      | some (f, r) => some (some (RowColumn.new_float f), r)
      | none => none
    | 4 =>
      match decBool bs with
      | some (b, r) => some (some (RowColumn.new_bool b), r)
      | none => none
    | 5 =>
      match decBytes bs with
      | some (bs2, r) => some (some (RowColumn.new_bytes bs2), r)
      | none => none
    | _ => none

/-- `Row::to_bytes`. -/
def Row.to_bytes (r : Row) : ByteStr := encListWith encColOpt r.columns

/-- `Row::from_bytes` (like `from_avro_datum`, trailing input is ignored). -/
def Row.from_bytes (bs : ByteStr) : Option Row :=
  match decListWith decColOpt bs with
  | some (cols, _) => some ⟨cols⟩
  | none => none

/-- Field encoding: name then type tag. -/
def encField (f : Field) : ByteStr :=
  encBytes f.name ++
    [match f.ty with
     | .String => 0
     | .Int => 1
     | .Float => 2
     | .Bool => 3
     | .Bytes => 4]

/-- Field decoding. -/
def decField (bs : ByteStr) : Option (Field × ByteStr) :=
  match decBytes bs with
  | some (nm, r) =>
    match r with
    | 0 :: r2 => some (⟨nm, .String⟩, r2)
    | 1 :: r2 => some (⟨nm, .Int⟩, r2)
    | 2 :: r2 => some (⟨nm, .Float⟩, r2)
    | 3 :: r2 => some (⟨nm, .Bool⟩, r2)
    | 4 :: r2 => some (⟨nm, .Bytes⟩, r2)
    | _ => none
  | none => none

/-- Index encoding: name then field-name list. -/
def encIndex (i : Index) : ByteStr := encBytes i.name ++ encListWith encBytes i.fields

/-- Index decoding. -/
def decIndex (bs : ByteStr) : Option (Index × ByteStr) :=
  match decBytes bs with
  | some (nm, r) =>
    match decListWith decBytes r with
    | some (fs, r2) => some (⟨nm, fs⟩, r2)
    | none => none
  | none => none

/-- `Table::to_bytes`. -/
def Table.to_bytes (t : Table) : ByteStr :=
  encBytes t.name ++ encListWith encField t.fields ++
    encListWith encBytes t.primary_key ++ encListWith encIndex t.indexes

/-- `Table::from_bytes`. -/
def Table.from_bytes (bs : ByteStr) : Option Table :=
  match decBytes bs with
  | some (nm, r) =>
    match decListWith decField r with
    | some (fs, r2) =>
      match decListWith decBytes r2 with
      | some (pk, r3) =>
        match decListWith decIndex r3 with
        | some (idxs, _) => some ⟨nm, fs, pk, idxs⟩
        | none => none
      | none => none
    | none => none
  | none => none

/-- `TableMetadata::to_bytes`. -/
def TableMetadata.to_bytes (m : TableMetadata) : ByteStr :=
  encBytes m.name ++ encNat m.max_row_id

/-- `TableMetadata::from_bytes`. -/
def TableMetadata.from_bytes (bs : ByteStr) : Option TableMetadata :=
  match decBytes bs with
  | some (nm, r) =>
    match decNat r with
    | some (mx, _) => some ⟨nm, mx⟩
    | none => none
  | none => none

/-! ## The tuple codec for packed row-ids

Modelled from the spec (section 6): the `foundationdb_tuple` crate is
external; `pack`/`unpack` of an `i64` is an injective framed encoding
and `unpack` rejects trailing bytes and malformed input. -/

/-- `pack(&row_id)` for an `i64`. -/
def packI64 (i : Int) : ByteStr := encInt i

/-- `unpack::<i64>`: fails on malformed input or trailing bytes. -/
def unpackI64 (bs : ByteStr) : Option Int :=
  match decInt bs with
  | some (i, []) => some i
  | _ => none

/-! ## Error taxonomy (`src/errors.rs`)

`MismatchedColumnType` carries two Debug-formatted strings in Rust
(`format!("{expected:?}")` / `format!("{found:?}")`); since Debug
formatting is injective on the values involved we carry the values
themselves.  `Fdb` stands for `SqlLayerError::Fdb(FdbBindingError)`,
the variant through which the tuple-codec `PackError` surfaces. -/
inductive SqlLayerError where
  | Fdb
  | Avro
  | MissingColumn (name : ByteStr)
  | MismatchedColumnType (expected : FieldType) (found : Column)
  | TableNotFound (name : ByteStr)
  | TableAlreadyExists (name : ByteStr)
  | IndexNotFound (name : ByteStr)
deriving DecidableEq

/-- `database.rs` `check_field_against_column`: the five congruent
pairs succeed, everything else (including any pairing with `Null`)
falls to the catch-all arm and fails. -/
def check_field_against_column (field : FieldType) (column : Column) :
    Except SqlLayerError Unit :=
  match field, column with
  | .Bool, .Bool _ => .ok ()
  | .Int, .Int _ => .ok ()
  | .String, .String _ => .ok ()
  | .Float, .Float _ => .ok ()
  | .Bytes, .Bytes _ => .ok ()
  | expected, found => .error (.MismatchedColumnType expected found)

/-! ## Key space and KV store (`src/database.rs` `DataPrefix`, key layout)

Keys are tuple-packed under the root subspace: data-prefix tag, table
name, and further discriminators.  The tuple codec is injective on
these shapes (spec section 6), so keys are modelled structurally: two
keys are equal exactly when their components are. -/

/-- One key of the layer's key space; constructors mirror the
`DataPrefix` tags of `database.rs`. -/
inductive DBKey where
  | table (name : ByteStr)
  | tableMeta (name : ByteStr)
  | row (name : ByteStr) (row_id : Int)
  | primaryKey (name : ByteStr) (pk : List Column)
  | index (name : ByteStr) (cols : List Column)
deriving DecidableEq

/-- The KV store visible to one database instance. -/
abbrev KVStore := List (DBKey × ByteStr)

/-- Transactional `get`. -/
def kvGet : KVStore → DBKey → Option ByteStr
  | [], _ => none
  | (k', v) :: rest, k => if k' = k then some v else kvGet rest k

/-- Transactional `set` (blind write: replaces any existing value). -/
def kvSet : KVStore → DBKey → ByteStr → KVStore
  | [], k, v => [(k, v)]
  | (k', v') :: rest, k, v =>
    if k' = k then (k, v) :: rest else (k', v') :: kvSet rest k v

/-- `u64 as i64`: the cast `meta.get_current_row_id() as i64`. -/
def u64ToI64 (m : Nat) : Int :=
  if m < 2 ^ 63 then (m : Int) else (m : Int) - 2 ^ 64

/-! ## Database operations (`src/database.rs`) -/

/-- `Database::create_table`: serialize and blindly write the schema
key (no existence check; `Storage::set` runs its own transaction). -/
def create_table (t : Table) (s : KVStore) : KVStore :=
  kvSet s (.table t.name) t.to_bytes

/-- `Database::get_table_internal`: read and decode the schema under
the current transaction; absent is `none`, a decode failure is an
error. -/
def get_table_internal (s : KVStore) (table_name : ByteStr) :
    Except SqlLayerError (Option Table) :=
  match kvGet s (.table table_name) with
  | none => .ok none
  | some bs =>
    match Table.from_bytes bs with
    | some t => .ok (some t)
    | none => .error .Avro

/-- `Database::get_table_meta`: read the metadata; if absent, lazily
create `TableMetadata::new` (with `max_row_id = 0`), write it inside
the same transaction, and return it. -/
def get_table_meta (table_name : ByteStr) (s : KVStore) :
    Except SqlLayerError (TableMetadata × KVStore) :=
  match kvGet s (.tableMeta table_name) with
  | some bs =>
    match TableMetadata.from_bytes bs with
    | some m => .ok (m, s)
    | none => .error .Avro
  | none =>
    let m := TableMetadata.new table_name
    .ok (m, kvSet s (.tableMeta table_name) m.to_bytes)

/-- The type-validation loop of `Database::insert`: the schema fields
and the record columns are zipped positionally and each pair goes
through `check_field_against_column`; the first failure aborts. -/
def validateColumns : List Field → List Column → Except SqlLayerError Unit
  | f :: fs, c :: cs =>
    match check_field_against_column f.ty c with
    | .ok _ => validateColumns fs cs
    | .error e => .error e
  | _, _ => .ok ()

/-- The column-gathering loop shared by primary-key extraction and
index maintenance in `Database::insert`: for each field name, find its
schema position (`MissingColumn` if absent) and fetch the record column
at that position (`MissingColumn` if the record is too short). -/
def extractCols (t : Table) (r : Record) : List ByteStr → Except SqlLayerError (List Column)
  | [] => .ok []
  | f :: fs =>
    match t.get_field_pos f with
    | none => .error (.MissingColumn f)
    | some i =>
      match r.columns[i]? with
      | none => .error (.MissingColumn f)
      | some c =>
        match extractCols t r fs with
        | .ok rest => .ok (c :: rest)
        | .error e => .error e

/-- The index-maintenance loop of `Database::insert`: for each
secondary index, gather its columns and blindly write the index entry
to the packed row-id. -/
def writeIndexes (table_name : ByteStr) (row_id : Int) (t : Table) (r : Record) :
    List Index → KVStore → Except SqlLayerError KVStore
  | [], s => .ok s
  | idx :: rest, s =>
    match extractCols t r idx.fields with
    | .ok cols =>
        writeIndexes table_name row_id t r rest
          (kvSet s (.index table_name cols) (packI64 row_id))
    | .error e => .error e

/-- The transaction body of `Database::insert`: read the schema (absent
table is a silent no-op), validate, extract the primary key, read or
lazily create the metadata, write the primary-key entry, the index
entries, the row payload, and the bumped metadata. -/
def insertBody (table_name : ByteStr) (r : Record) (s : KVStore) :
    Except SqlLayerError KVStore :=
  match get_table_internal s table_name with
  | .error e => .error e
  | .ok none => .ok s
  | .ok (some t) =>
    match validateColumns t.fields r.columns with
    | .error e => .error e
    | .ok _ =>
      match extractCols t r t.primary_key with
      | .error e => .error e
      | .ok pk =>
        match get_table_meta table_name s with
        | .error e => .error e
        | .ok (meta, s1) =>
          let row_id : Int := u64ToI64 meta.get_current_row_id
          let s2 := kvSet s1 (.primaryKey table_name pk) (packI64 row_id)
          match writeIndexes table_name row_id t r t.indexes s2 with
          | .error e => .error e
          | .ok s3 =>
            let s4 := kvSet s3 (.row table_name row_id) r.toRow.to_bytes
            let meta2 := meta.increment_max_row_id
            .ok (kvSet s4 (.tableMeta table_name) meta2.to_bytes)

/-- `Database::insert`: the body runs inside one transaction; an error
aborts the transaction, so nothing is committed and the store is
unchanged. -/
def insert (table_name : ByteStr) (r : Record) (s : KVStore) :
    KVStore × Option SqlLayerError :=
  match insertBody table_name r s with
  | .ok s' => (s', none)
  | .error e => (s, some e)

/-- The transaction body of `Database::get_record_by_pk`: read the
primary-key entry (absent is a miss), unpack the row-id (malformed is a
`PackError` surfaced through `SqlLayerError::Fdb`), and read the row
payload bytes.  The body issues only reads; the threaded store is
returned with the result. -/
def get_record_by_pk_body (table_name : ByteStr) (pk : List Column) (s : KVStore) :
    KVStore × Except SqlLayerError (Option ByteStr) :=
  match kvGet s (.primaryKey table_name pk) with
  | none => (s, .ok none)
  | some v =>
    match unpackI64 v with
    | none => (s, .error .Fdb)
    | some row_id => (s, .ok (kvGet s (.row table_name row_id)))

/-- `Database::get_record_by_pk`: run the read-only body, then (outside
the transaction) treat an absent payload as a miss and decode the row
into a record.  The first component is the committed store. -/
def get_record_by_pk (table_name : ByteStr) (pk : List Column) (s : KVStore) :
    KVStore × Except SqlLayerError (Option Record) :=
  match get_record_by_pk_body table_name pk s with
  | (s1, .ok none) => (s1, .ok none)
  | (s1, .ok (some bs)) =>
    match Row.from_bytes bs with
    | some row => (s1, .ok (some row.toRecord))
    | none => (s1, .error .Avro)
  | (_, .error e) => (s, .error e)

/-- A sequence of inserts into one table; `some` exactly when every
insert in the list returned `Ok(())`. -/
def insertSeq (table_name : ByteStr) : List Record → KVStore → Option KVStore
  | [], s => some s
  | r :: rs, s =>
    match insert table_name r s with
    | (s', none) => insertSeq table_name rs s'
    | (_, some _) => none

/-! ## The KV facade range reads (`src/storage.rs`)

`Storage::scan` / `Storage::full_scan` operate on raw byte keys.  A
snapshot of the backing store is modelled as a list of key–value pairs
in strictly ascending key order (FoundationDB range reads return keys
in ascending order). -/

/-- The raw byte-keyed store seen by `Storage`. -/
abbrev ByteStore := List (ByteStr × ByteStr)

/-- Strict lexicographic order on byte strings (the order of the
backing store's key space). -/
def bytesLt : ByteStr → ByteStr → Bool
  | [], [] => false
  | [], _ :: _ => true
  | _ :: _, [] => false
  | a :: as, b :: bs => a < b || (a == b && bytesLt as bs)

/-- Reflexive lexicographic order on byte strings. -/
def bytesLe (x y : ByteStr) : Bool := bytesLt x y || x == y

/-- Membership of a key in the half-open scan range `[start, end)`. -/
def inRange (start e k : ByteStr) : Bool := bytesLe start k && bytesLt k e

/-- `MAX_SCAN_SIZE` of `storage.rs` (`collect_stream` also hard-codes
`take(20)`). -/
def MAX_SCAN_SIZE : Nat := 20

/-- `Storage::scan`: a bounded range read over `[start, end)`, capped
at `MAX_SCAN_SIZE` items, returned in ascending key order. -/
def scan (s : ByteStore) (start e : ByteStr) : List (ByteStr × ByteStr) :=
  (s.filter fun kv => inRange start e kv.1).take MAX_SCAN_SIZE

/-- The `full_scan` loop with explicit fuel: repeatedly `scan`, stop on
an empty page, otherwise advance `start` to the last returned key
extended by one `0xff` byte and continue.  `none` means the fuel ran
out before the loop's own termination condition (the loop in the
source is unbounded); `full_scan` supplies fuel that is proved
sufficient for sorted stores. -/
def full_scanF : Nat → ByteStore → ByteStr → ByteStr → Option (List (ByteStr × ByteStr))
  | 0, _, _, _ => none
  | fuel + 1, s, start, e =>
    let kvs := scan s start e
    match kvs.getLast? with
    | none => some []
    | some kv =>
      match full_scanF fuel s (kv.1 ++ [255]) e with
      | some rest => some (kvs ++ rest)
      | none => none

/-- `Storage::full_scan` collected to a list. -/
def full_scan (s : ByteStore) (start e : ByteStr) : Option (List (ByteStr × ByteStr)) :=
  full_scanF (s.length + 1) s start e

/-- Keys of the store are strictly ascending (the store is a sorted
snapshot). -/
def StoreSorted (s : ByteStore) : Prop :=
  List.Pairwise (fun a b => bytesLt a.1 b.1 = true) s

instance (s : ByteStore) : Decidable (StoreSorted s) :=
  List.instDecidablePairwise s

/-- `extendsKey b a`: `b` is `a` extended by at least one byte. -/
def extendsKey : ByteStr → ByteStr → Bool
  | [], _ => false
  | _ :: _, [] => true
  | b :: bs, a :: as => a == b && extendsKey bs as

/-- No key of the store strictly extends another key of the store. -/
def NoKeyExtends (s : ByteStore) : Bool :=
  s.all fun kv => s.all fun kv2 => !extendsKey kv2.1 kv.1

/-! ## Predicates used to state the claims -/

/-- The five congruent `(FieldType, Column)` combinations of
`check_field_against_column`; `false` for every other pairing, in
particular whenever the column is `Null`. -/
def columnMatches (ft : FieldType) (c : Column) : Bool :=
  match ft, c with
  | .Bool, .Bool _ => true
  | .Int, .Int _ => true
  | .String, .String _ => true
  | .Float, .Float _ => true
  | .Bytes, .Bytes _ => true
  | _, _ => false

/-- The record has no column for this field name: either the name is
absent from the schema's field list, or the record is shorter than the
field's position. -/
def fieldMissing (t : Table) (r : Record) (f : ByteStr) : Bool :=
  match t.get_field_pos f with
  | none => true
  | some i => (r.columns[i]?).isNone

/-- The metadata key for this table is absent or holds decodable
bytes (so `get_table_meta` cannot fail). -/
def metaReadable (s : KVStore) (n : ByteStr) : Bool :=
  match kvGet s (.tableMeta n) with
  | none => true
  | some bs => (TableMetadata.from_bytes bs).isSome

/-! ## Concrete sample data

Used by the closed witness and counterexample theorems.  Byte strings
are spelled out (e.g. `[80, 101, 114, 115, 111, 110]` is `"Person"`,
`[110, 97, 109, 101]` is `"name"`, `[97, 103, 101]` is `"age"`). -/

/-- A small `Person` table: fields `name: String`, `age: Int`, primary
key `["name"]`, no secondary indexes. -/
def personTable : Table :=
  ⟨[80, 101, 114, 115, 111, 110],
   [⟨[110, 97, 109, 101], .String⟩, ⟨[97, 103, 101], .Int⟩],
   [[110, 97, 109, 101]],
   []⟩

/-- A record fitting `personTable` (`name = "Jo"`, `age = 20`). -/
def johnRecord : Record := ⟨[.String [74, 111], .Int 20]⟩

/-- A second record fitting `personTable` (`name = "Al"`, `age = 7`). -/
def alRecord : Record := ⟨[.String [65, 108], .Int 7]⟩

/-- The store after creating `personTable` in an empty store. -/
def personStore : KVStore := create_table personTable []

/-- A record with a `Null` first column for `personTable`. -/
def nullRecord : Record := ⟨[.Null, .Int 20]⟩

/-- A record whose first column mismatches `personTable` (`Int` where
`String` is expected). -/
def mismatchRecord : Record := ⟨[.Int 5, .Int 20]⟩

/-- A table whose primary key names a field (`"b"`) that is not in the
field list (`[a: Int]`). -/
def badPkTable : Table := ⟨[84], [⟨[97], .Int⟩], [[98]], []⟩

/-- The store after creating `badPkTable` in an empty store. -/
def badPkStore : KVStore := create_table badPkTable []

/-- A record that type-mismatches `badPkTable` (`String "x"` against
`a: Int`). -/
def badPkRecord : Record := ⟨[.String [120]]⟩

/-- A record that passes type validation against `badPkTable` but has
no column for the primary-key field `"b"`. -/
def missingPkRecord : Record := ⟨[.Int 5]⟩

/-- A store whose primary-key entry for the empty pk tuple holds bytes
that do not unpack as an `i64` (`[200]` is a dangling continuation
byte). -/
def malformedPkStore : KVStore := [(DBKey.primaryKey [84] [], [200])]

/-- A byte store of 21 keys `[0], [1], …, [19], [19, 0]` in ascending
order: the 21st key strictly extends the 20th, which is the last key of
the first `scan` page. -/
def skipStore : ByteStore :=
  ((List.range 20).map fun i => ([i], ([] : ByteStr))) ++ [([19, 0], [])]

/-- A small sorted byte store with no key extending another. -/
def smallStore : ByteStore := [([0], [7]), ([1], [8]), ([2, 5], [9])]

/-- The store after inserting `johnRecord` then `alRecord` into
`personTable` (used as the concrete end state of an insert sequence). -/
def personStore2 : KVStore :=
  (insertSeq [80, 101, 114, 115, 111, 110] [johnRecord, alRecord] personStore).getD []

/-- A well-formed row exercising all five typed variants and a null. -/
def sampleRow : Row :=
  ⟨[some (RowColumn.new_string [74, 111]), some (RowColumn.new_int (-7)),
    some (RowColumn.new_float 4627730092099895296), some (RowColumn.new_bool true),
    some (RowColumn.new_bytes [1, 2, 3]), none]⟩

/-! ## Codec round-trip lemmas -/

theorem decNat_encNatF (fuel : Nat) :
    ∀ (n : Nat) (r : ByteStr), n ≤ fuel → decNat (encNatF fuel n ++ r) = some (n, r) := by
  induction fuel with
  | zero =>
    intro n r h
    have hn : n = 0 := by omega
    subst hn
    simp [encNatF, decNat]
  | succ fuel ih =>
    intro n r h
    by_cases hn : n < 128
    · simp [encNatF, hn, decNat]
    · have h1 : n / 128 ≤ fuel := by
        have h2 : n / 128 < n := Nat.div_lt_self (by omega) (by norm_num)
        omega
      have hh : ¬ (n % 128 + 128 < 128) := by omega
      simp only [encNatF, if_neg hn, List.cons_append, decNat, if_neg hh, ih _ r h1]
      have : n % 128 + 128 - 128 + 128 * (n / 128) = n := by omega
      rw [this]

theorem decNat_encNat (n : Nat) (r : ByteStr) : decNat (encNat n ++ r) = some (n, r) :=
  decNat_encNatF n n r le_rfl

theorem unzigzag_zigzag (i : Int) : unzigzag (zigzag i) = i := by
  unfold zigzag unzigzag
  split_ifs <;> omega

theorem decInt_encInt (i : Int) (r : ByteStr) : decInt (encInt i ++ r) = some (i, r) := by
  simp [decInt, encInt, decNat_encNat, unzigzag_zigzag]

theorem decBytes_encBytes (b : ByteStr) (r : ByteStr) :
    decBytes (encBytes b ++ r) = some (b, r) := by
  simp only [decBytes, encBytes, List.append_assoc, decNat_encNat]
  simp

theorem decBool_encBool (b : Bool) (r : ByteStr) : decBool (encBool b ++ r) = some (b, r) := by
  cases b <;> rfl

theorem unpackI64_packI64 (i : Int) : unpackI64 (packI64 i) = some i := by
  have h := decInt_encInt i []
  simp only [List.append_nil] at h
  simp [unpackI64, packI64, encInt] at h ⊢
  simp [h]

theorem decListItems_encListItems (dec : ByteStr → Option (α × ByteStr))
    (enc : α → ByteStr) (l : List α)
    (H : ∀ x ∈ l, ∀ r, dec (enc x ++ r) = some (x, r)) :
    ∀ r, decListItems dec l.length (encListItems enc l ++ r) = some (l, r) := by
  induction l with
  | nil => intro r; simp [encListItems, decListItems]
  | cons x xs ih =>
    intro r
    have hx := H x (by simp)
    have hxs : ∀ y ∈ xs, ∀ r, dec (enc y ++ r) = some (y, r) := fun y hy => H y (by simp [hy])
    simp only [encListItems, List.length_cons, decListItems, List.append_assoc, hx,
      ih hxs r]

theorem decListWith_encListWith (dec : ByteStr → Option (α × ByteStr))
    (enc : α → ByteStr) (l : List α)
    (H : ∀ x ∈ l, ∀ r, dec (enc x ++ r) = some (x, r)) (r : ByteStr) :
    decListWith dec (encListWith enc l ++ r) = some (l, r) := by
  simp only [decListWith, encListWith, List.append_assoc, decNat_encNat,
    decListItems_encListItems dec enc l H r]

theorem decColOpt_encColOpt (co : Option RowColumn)
    (h : match co with | none => True | some c => c.wfb = true) :
    ∀ r, decColOpt (encColOpt co ++ r) = some (co, r) := by
  intro r
  match co with
  | none => simp [encColOpt, decColOpt]
  | some c =>
    obtain ⟨cs, ci, cf, cb, cby⟩ := c
    rcases cs with _ | s <;> rcases ci with _ | i <;> rcases cf with _ | f <;>
        rcases cb with _ | b <;> rcases cby with _ | bb <;>
      simp_all [RowColumn.wfb, encColOpt, decColOpt, decBytes_encBytes, decInt_encInt,
        decNat_encNat, decBool_encBool, RowColumn.new_string, RowColumn.new_int,
        RowColumn.new_float, RowColumn.new_bool, RowColumn.new_bytes]

theorem row_from_bytes_to_bytes (r : Row) (h : r.wfb = true) :
    Row.from_bytes r.to_bytes = some r := by
  have H : ∀ co ∈ r.columns, ∀ rest, decColOpt (encColOpt co ++ rest) = some (co, rest) := by
    intro co hco rest
    apply decColOpt_encColOpt
    match co with
    | none => trivial
    | some c =>
      have := List.all_eq_true.mp h _ hco
      simpa using this
  have h2 := decListWith_encListWith decColOpt encColOpt r.columns H []
  simp only [List.append_nil] at h2
  simp [Row.from_bytes, Row.to_bytes, h2]

theorem decField_encField (f : Field) (r : ByteStr) : decField (encField f ++ r) = some (f, r) := by
  obtain ⟨nm, ty⟩ := f
  cases ty <;>
    simp [decField, encField, List.append_assoc, decBytes_encBytes]

theorem decIndex_encIndex (i : Index) (r : ByteStr) : decIndex (encIndex i ++ r) = some (i, r) := by
  obtain ⟨nm, fs⟩ := i
  have h := decListWith_encListWith decBytes encBytes fs (fun x _ => decBytes_encBytes x) r
  simp [decIndex, encIndex, List.append_assoc, decBytes_encBytes, h]

theorem table_from_bytes_to_bytes (t : Table) : Table.from_bytes t.to_bytes = some t := by
  obtain ⟨nm, fs, pk, idxs⟩ := t
  have hf := decListWith_encListWith decField encField fs
    (fun x _ => decField_encField x) (encListWith encBytes pk ++ encListWith encIndex idxs)
  have hp := decListWith_encListWith decBytes encBytes pk
    (fun x _ => decBytes_encBytes x) (encListWith encIndex idxs)
  have hi := decListWith_encListWith decIndex encIndex idxs
    (fun x _ => decIndex_encIndex x) []
  simp only [List.append_nil] at hi
  simp [Table.from_bytes, Table.to_bytes, List.append_assoc, decBytes_encBytes, hf, hp, hi]

theorem meta_from_bytes_to_bytes (m : TableMetadata) :
    TableMetadata.from_bytes m.to_bytes = some m := by
  obtain ⟨nm, mx⟩ := m
  have h := decNat_encNat mx []
  simp only [List.append_nil] at h
  simp [TableMetadata.from_bytes, TableMetadata.to_bytes, decBytes_encBytes, h]

/-! ## Record / Row conversion lemmas -/

theorem toRecord_toRow (r : Record) : (Record.toRow r).toRecord = r := by
  obtain ⟨cols⟩ := r
  simp only [Record.toRow, Row.toRecord, List.map_map, Record.mk.injEq]
  induction cols with
  | nil => rfl
  | cons c cs ih =>
    cases c <;> simp_all [RowColumn.toColumn, RowColumn.new_string, RowColumn.new_int,
      RowColumn.new_float, RowColumn.new_bool, RowColumn.new_bytes]

theorem toRow_wfb (r : Record) : (Record.toRow r).wfb = true := by
  obtain ⟨cols⟩ := r
  simp only [Record.toRow, Row.wfb, List.all_eq_true]
  intro co hco
  simp only [List.mem_map] at hco
  obtain ⟨c, _, rfl⟩ := hco
  cases c <;> rfl

/-! ## KV store laws -/

theorem kvGet_kvSet_same (s : KVStore) (k : DBKey) (v : ByteStr) :
    kvGet (kvSet s k v) k = some v := by
  induction s with
  | nil => simp [kvSet, kvGet]
  | cons hd tl ih =>
    obtain ⟨k', v'⟩ := hd
    by_cases h : k' = k <;> simp [kvSet, kvGet, h, ih]

theorem kvGet_kvSet_ne (s : KVStore) (k k' : DBKey) (v : ByteStr) (h : k ≠ k') :
    kvGet (kvSet s k v) k' = kvGet s k' := by
  induction s with
  | nil => simp [kvSet, kvGet, h]
  | cons hd tl ih =>
    obtain ⟨k0, v0⟩ := hd
    by_cases h0 : k0 = k
    · subst h0; simp [kvSet, kvGet, h]
    · simp [kvSet, kvGet, h0, ih]

/-! ## Validation lemmas -/

theorem check_error_of_not_matches (ft : FieldType) (c : Column)
    (h : columnMatches ft c = false) :
    check_field_against_column ft c = .error (.MismatchedColumnType ft c) := by
  cases ft <;> cases c <;> simp_all [columnMatches, check_field_against_column]

theorem check_err_shape (ft : FieldType) (c : Column) (e : SqlLayerError)
    (h : check_field_against_column ft c = .error e) :
    e = .MismatchedColumnType ft c := by
  cases ft <;> cases c <;> simp_all [check_field_against_column]

theorem columnMatches_null (ft : FieldType) : columnMatches ft .Null = false := by
  cases ft <;> rfl

theorem validate_err_shape (fs : List Field) (cs : List Column) (e : SqlLayerError)
    (h : validateColumns fs cs = .error e) :
    ∃ ft c, e = .MismatchedColumnType ft c := by
  induction fs generalizing cs with
  | nil => simp [validateColumns] at h
  | cons f fs ih =>
    cases cs with
    | nil => simp [validateColumns] at h
    | cons c cs =>
      simp only [validateColumns] at h
      cases hc : check_field_against_column f.ty c with
      | ok u => rw [hc] at h; exact ih cs h
      | error e' =>
        rw [hc] at h
        cases h
        exact ⟨f.ty, c, check_err_shape _ _ _ hc⟩

theorem validate_not_ok_of_bad (fs : List Field) (cs : List Column) (i : Nat)
    (f : Field) (c : Column) (hf : fs[i]? = some f) (hc : cs[i]? = some c)
    (hbad : columnMatches f.ty c = false) :
    validateColumns fs cs ≠ .ok () := by
  induction fs generalizing cs i with
  | nil => simp at hf
  | cons f0 fs ih =>
    cases cs with
    | nil => simp at hc
    | cons c0 cs =>
      cases i with
      | zero =>
        simp only [List.getElem?_cons_zero, Option.some.injEq] at hf hc
        subst hf; subst hc
        simp [validateColumns, check_error_of_not_matches _ _ hbad]
      | succ i =>
        simp only [List.getElem?_cons_succ] at hf hc
        simp only [validateColumns]
        cases hch : check_field_against_column f0.ty c0 with
        | ok u => exact ih cs i hf hc
        | error e => simp

theorem validate_mismatch (fs : List Field) (cs : List Column) (i : Nat)
    (f : Field) (c : Column) (hf : fs[i]? = some f) (hc : cs[i]? = some c)
    (hbad : columnMatches f.ty c = false) :
    ∃ ft found, validateColumns fs cs = .error (.MismatchedColumnType ft found) := by
  cases hv : validateColumns fs cs with
  | ok u =>
    cases u
    exact absurd hv (validate_not_ok_of_bad fs cs i f c hf hc hbad)
  | error e =>
    obtain ⟨ft, found, rfl⟩ := validate_err_shape fs cs e hv
    exact ⟨ft, found, rfl⟩

/-! ## Insert unfolding and frame lemmas -/

theorem insert_validate_error (s : KVStore) (n : ByteStr) (t : Table) (r : Record)
    (e : SqlLayerError)
    (ht : get_table_internal s n = .ok (some t))
    (hv : validateColumns t.fields r.columns = .error e) :
    insert n r s = (s, some e) := by
  simp [insert, insertBody, ht, hv]

theorem get_table_meta_frame (n : ByteStr) (s s1 : KVStore) (m : TableMetadata)
    (h : get_table_meta n s = .ok (m, s1)) (k : DBKey) (hk : k ≠ .tableMeta n) :
    kvGet s1 k = kvGet s k := by
  unfold get_table_meta at h
  cases hg : kvGet s (.tableMeta n) with
  | some bs =>
    simp only [hg] at h
    cases hd : TableMetadata.from_bytes bs with
    | some m' =>
      simp only [hd, Except.ok.injEq, Prod.mk.injEq] at h
      rw [← h.2]
    | none => simp only [hd] at h; exact absurd h (by simp)
  | none =>
    simp only [hg, Except.ok.injEq, Prod.mk.injEq] at h
    rw [← h.2]
    exact kvGet_kvSet_ne s _ k _ (Ne.symm hk)

theorem writeIndexes_frame (n : ByteStr) (rid : Int) (t : Table) (r : Record)
    (idxs : List Index) (s0 s1 : KVStore)
    (h : writeIndexes n rid t r idxs s0 = .ok s1) (k : DBKey)
    (hk : ∀ nm cols, k ≠ .index nm cols) :
    kvGet s1 k = kvGet s0 k := by
  induction idxs generalizing s0 with
  | nil =>
    simp only [writeIndexes, Except.ok.injEq] at h
    rw [h]
  | cons idx rest ih =>
    simp only [writeIndexes] at h
    cases hex : extractCols t r idx.fields with
    | error e => rw [hex] at h; simp at h
    | ok cols =>
      rw [hex] at h
      rw [ih _ h, kvGet_kvSet_ne _ _ _ _ (Ne.symm (hk n cols))]

theorem insert_ok_unfold (s s' : KVStore) (n : ByteStr) (t : Table) (r : Record)
    (ht : get_table_internal s n = .ok (some t))
    (hins : insert n r s = (s', none)) :
    ∃ pk meta s1 s3,
      extractCols t r t.primary_key = .ok pk ∧
      get_table_meta n s = .ok (meta, s1) ∧
      writeIndexes n (u64ToI64 meta.max_row_id) t r t.indexes
        (kvSet s1 (.primaryKey n pk) (packI64 (u64ToI64 meta.max_row_id))) = .ok s3 ∧
      s' = kvSet (kvSet s3 (.row n (u64ToI64 meta.max_row_id)) r.toRow.to_bytes)
        (.tableMeta n) (TableMetadata.to_bytes ⟨meta.name, meta.max_row_id + 1⟩) := by
  simp only [insert, insertBody, ht] at hins
  cases hv : validateColumns t.fields r.columns with
  | error e => rw [hv] at hins; simp at hins
  | ok u =>
    cases u
    rw [hv] at hins
    cases hex : extractCols t r t.primary_key with
    | error e => rw [hex] at hins; simp at hins
    | ok pk =>
      rw [hex] at hins
      cases hgm : get_table_meta n s with
      | error e => rw [hgm] at hins; simp at hins
      | ok ms =>
        obtain ⟨meta, s1⟩ := ms
        rw [hgm] at hins
        simp only [TableMetadata.get_current_row_id] at hins
        cases hwi : writeIndexes n (u64ToI64 meta.max_row_id) t r t.indexes
            (kvSet s1 (.primaryKey n pk) (packI64 (u64ToI64 meta.max_row_id))) with
        | error e => rw [hwi] at hins; simp at hins
        | ok s3 =>
          rw [hwi] at hins
          simp only [TableMetadata.increment_max_row_id, Prod.mk.injEq] at hins
          exact ⟨pk, meta, s1, s3, rfl, rfl, hwi, hins.1.symm⟩

/-! ## Claim theorems -/

/-- C1: for every table `t` that has been created (its schema is
readable from the store under name `n`) and every record `r`
successfully inserted into it, `get_record_by_pk` with `n` and `r`'s
primary-key column values returns `Some(r')` where `r'` is the
encode-then-decode image of `r` (and that image equals `r`). -/
theorem C1_insert_then_pk_lookup (s s' : KVStore) (n : ByteStr) (t : Table) (r : Record)
    (ht : get_table_internal s n = .ok (some t))
    (hins : insert n r s = (s', none)) :
    ∃ pk, extractCols t r t.primary_key = .ok pk ∧
      get_record_by_pk n pk s' = (s', .ok (some (Record.toRow r).toRecord)) ∧
      (Record.toRow r).toRecord = r := by
  obtain ⟨pk, meta, s1, s3, hex, hgm, hwi, hs'⟩ := insert_ok_unfold s s' n t r ht hins
  refine ⟨pk, hex, ?_, toRecord_toRow r⟩
  have hpk : kvGet s' (.primaryKey n pk) = some (packI64 (u64ToI64 meta.max_row_id)) := by
    rw [hs', kvGet_kvSet_ne _ _ _ _ (by intro hh; cases hh),
      kvGet_kvSet_ne _ _ _ _ (by intro hh; cases hh),
      writeIndexes_frame _ _ _ _ _ _ _ hwi _ (by intro nm cols hh; cases hh)]
    exact kvGet_kvSet_same _ _ _
  have hrow : kvGet s' (.row n (u64ToI64 meta.max_row_id)) = some r.toRow.to_bytes := by
    rw [hs', kvGet_kvSet_ne _ _ _ _ (by intro hh; cases hh)]
    exact kvGet_kvSet_same _ _ _
  simp only [get_record_by_pk, get_record_by_pk_body, hpk, unpackI64_packI64, hrow,
    row_from_bytes_to_bytes _ (toRow_wfb r)]

/-- Witness for C1 at the concrete `Person` table and record. -/
theorem C1_witness :
    ∃ pk, extractCols personTable johnRecord personTable.primary_key = .ok pk ∧
      get_record_by_pk [80, 101, 114, 115, 111, 110] pk
          (insert [80, 101, 114, 115, 111, 110] johnRecord personStore).1 =
        ((insert [80, 101, 114, 115, 111, 110] johnRecord personStore).1,
          .ok (some (Record.toRow johnRecord).toRecord)) ∧
      (Record.toRow johnRecord).toRecord = johnRecord :=
  C1_insert_then_pk_lookup personStore _ _ personTable johnRecord (by decide) (by decide)

/-- C2: inserting into a table whose schema key is absent returns
`Ok(())` and leaves the KV store unchanged. -/
theorem C2_unknown_table_noop (s : KVStore) (n : ByteStr) (r : Record)
    (h : kvGet s (.table n) = none) :
    insert n r s = (s, none) := by
  simp [insert, insertBody, get_table_internal, h]

/-- Witness for C2: inserting into the empty store is a no-op. -/
theorem C2_witness : insert [84] johnRecord [] = ([], none) :=
  C2_unknown_table_noop [] [84] johnRecord (by decide)

/-- C3: for an existing table, a record whose column at position
`i < min(|fields|, |columns|)` is a typed non-`Null` variant different
from the schema's field type at `i` makes `insert` fail with
`MismatchedColumnType` and leaves the store unchanged. -/
theorem C3_mismatch_rejected (s : KVStore) (n : ByteStr) (t : Table) (r : Record)
    (i : Nat) (f : Field) (c : Column)
    (ht : get_table_internal s n = .ok (some t))
    (hf : t.fields[i]? = some f) (hc : r.columns[i]? = some c)
    (hnn : c ≠ .Null) (hdiff : columnMatches f.ty c = false) :
    ∃ ft found, insert n r s = (s, some (.MismatchedColumnType ft found)) := by
  obtain ⟨ft, found, hv⟩ := validate_mismatch t.fields r.columns i f c hf hc hdiff
  exact ⟨ft, found, insert_validate_error s n t r _ ht hv⟩

/-- Witness for C3: inserting `(Int 5, Int 20)` into `Person`
(first field `String`) fails with a type mismatch, store unchanged. -/
theorem C3_witness :
    ∃ ft found,
      insert [80, 101, 114, 115, 111, 110] mismatchRecord personStore =
        (personStore, some (.MismatchedColumnType ft found)) :=
  C3_mismatch_rejected personStore _ personTable mismatchRecord 0
    ⟨[110, 97, 109, 101], .String⟩ (.Int 5) (by decide) (by decide) (by decide)
    (by decide) (by decide)

/-- C4 counterexample: the claim says a `Null` column paired with a
schema field raises no validation error, but inserting
`(Null, Int 20)` into `Person` fails with
`MismatchedColumnType(String, Null)` — the `Null` column itself is
rejected by the catch-all arm of `check_field_against_column`. -/
theorem C4_counterexample :
    insert [80, 101, 114, 115, 111, 110] nullRecord personStore =
        (personStore, some (.MismatchedColumnType .String .Null)) ∧
      check_field_against_column .String .Null =
        .error (.MismatchedColumnType .String .Null) := by
  constructor <;> decide

/-- C4 (amended): a record with a `Null` column at a position paired
with a schema field fails `insert` with a `MismatchedColumnType` error
(`Null` columns do participate in validation and never match), leaving
the store unchanged. -/
theorem C4_null_fails_validation (s : KVStore) (n : ByteStr) (t : Table) (r : Record)
    (i : Nat) (f : Field)
    (ht : get_table_internal s n = .ok (some t))
    (hf : t.fields[i]? = some f) (hc : r.columns[i]? = some .Null) :
    ∃ ft found, insert n r s = (s, some (.MismatchedColumnType ft found)) := by
  obtain ⟨ft, found, hv⟩ :=
    validate_mismatch t.fields r.columns i f .Null hf hc (columnMatches_null f.ty)
  exact ⟨ft, found, insert_validate_error s n t r _ ht hv⟩

/-- Witness for the amended C4 at the concrete `Person` table. -/
theorem C4_witness :
    ∃ ft found,
      insert [80, 101, 114, 115, 111, 110] nullRecord personStore =
        (personStore, some (.MismatchedColumnType ft found)) :=
  C4_null_fails_validation personStore _ personTable nullRecord 0
    ⟨[110, 97, 109, 101], .String⟩ (by decide) (by decide) (by decide)

/-- C6: for every row built from the five typed variants and nulls,
`Row::from_bytes(r.to_bytes())` succeeds and returns `r` (so every
`None` column position is still `None` after the round trip). -/
theorem C6_row_roundtrip (r : Row) (h : r.wfb = true) :
    Row.from_bytes r.to_bytes = some r :=
  row_from_bytes_to_bytes r h

/-- Witness for C6 on a row exercising all five variants and a null. -/
theorem C6_witness :
    sampleRow.wfb = true ∧ Row.from_bytes sampleRow.to_bytes = some sampleRow :=
  ⟨by decide, C6_row_roundtrip sampleRow (by decide)⟩

/-- C9: `get_record_by_pk` returns `Ok(None)` when the primary-key
entry is absent; fails with the tuple-decode failure (the engine's
`PackError`, surfaced as `SqlLayerError::Fdb`, the spec's
serialization-failure kind) when the entry does not unpack as an
`i64`; and returns `Ok(None)` when the row-id unpacks but the row
payload key is absent. -/
theorem C9_lookup_error_paths (s : KVStore) (n : ByteStr) (pk : List Column) :
    (kvGet s (.primaryKey n pk) = none → get_record_by_pk n pk s = (s, .ok none)) ∧
    (∀ v, kvGet s (.primaryKey n pk) = some v → unpackI64 v = none →
      get_record_by_pk n pk s = (s, .error .Fdb)) ∧
    (∀ v rid, kvGet s (.primaryKey n pk) = some v → unpackI64 v = some rid →
      kvGet s (.row n rid) = none → get_record_by_pk n pk s = (s, .ok none)) := by
  refine ⟨?_, ?_, ?_⟩
  · intro h
    simp [get_record_by_pk, get_record_by_pk_body, h]
  · intro v hv hu
    simp [get_record_by_pk, get_record_by_pk_body, hv, hu]
  · intro v rid hv hu hr
    simp [get_record_by_pk, get_record_by_pk_body, hv, hu, hr]

/-- Witness for C9: the three paths at concrete stores (absent entry;
entry `[200]` that does not unpack; dangling row-id `3`). -/
theorem C9_witness :
    get_record_by_pk [84] [] ([] : KVStore) = ([], .ok none) ∧
      get_record_by_pk [84] [] malformedPkStore = (malformedPkStore, .error .Fdb) ∧
      get_record_by_pk [84] [] [(.primaryKey [84] [], packI64 3)] =
        ([(.primaryKey [84] [], packI64 3)], .ok none) :=
  ⟨(C9_lookup_error_paths [] [84] []).1 (by decide),
   (C9_lookup_error_paths malformedPkStore [84] []).2.1 [200] (by decide) (by decide),
   (C9_lookup_error_paths [(.primaryKey [84] [], packI64 3)] [84] []).2.2
     (packI64 3) 3 (by decide) (by decide) (by decide)⟩

/-- C10: `get_record_by_pk` never writes — whatever it returns, the
committed store equals the store before the call. -/
theorem C10_lookup_never_writes (s : KVStore) (n : ByteStr) (pk : List Column) :
    (get_record_by_pk n pk s).1 = s := by
  cases h1 : kvGet s (.primaryKey n pk) with
  | none => simp [get_record_by_pk, get_record_by_pk_body, h1]
  | some v =>
    cases h2 : unpackI64 v with
    | none => simp [get_record_by_pk, get_record_by_pk_body, h1, h2]
    | some rid =>
      cases h3 : kvGet s (.row n rid) with
      | none => simp [get_record_by_pk, get_record_by_pk_body, h1, h2, h3]
      | some bs =>
        cases h4 : Row.from_bytes bs with
        | none => simp [get_record_by_pk, get_record_by_pk_body, h1, h2, h3, h4]
        | some row => simp [get_record_by_pk, get_record_by_pk_body, h1, h2, h3, h4]

/-! ## Missing-column lemmas (C8) -/

theorem fieldMissing_false (t : Table) (r : Record) (f : ByteStr)
    (h : fieldMissing t r f = false) :
    ∃ i c, t.get_field_pos f = some i ∧ r.columns[i]? = some c := by
  unfold fieldMissing at h
  cases hp : t.get_field_pos f with
  | none => simp [hp] at h
  | some i =>
    simp only [hp] at h
    cases hc : r.columns[i]? with
    | none => simp [hc] at h
    | some c => exact ⟨i, c, rfl, hc⟩

theorem extractCols_ok_of_not_missing (t : Table) (r : Record) (names : List ByteStr)
    (h : ∀ f ∈ names, fieldMissing t r f = false) :
    ∃ cols, extractCols t r names = .ok cols := by
  induction names with
  | nil => exact ⟨[], rfl⟩
  | cons f fs ih =>
    obtain ⟨i, c, hp, hc⟩ := fieldMissing_false t r f (h f (by simp))
    obtain ⟨cols, hcols⟩ := ih (fun g hg => h g (by simp [hg]))
    exact ⟨c :: cols, by simp [extractCols, hp, hc, hcols]⟩

theorem extractCols_error_of_missing (t : Table) (r : Record) (names : List ByteStr)
    (f : ByteStr) (hf : f ∈ names) (hm : fieldMissing t r f = true) :
    ∃ f', fieldMissing t r f' = true ∧
      extractCols t r names = .error (.MissingColumn f') := by
  induction names with
  | nil => simp at hf
  | cons g gs ih =>
    cases hg : fieldMissing t r g with
    | true =>
      refine ⟨g, hg, ?_⟩
      unfold fieldMissing at hg
      cases hp : t.get_field_pos g with
      | none => simp [extractCols, hp]
      | some i =>
        simp only [hp] at hg
        cases hc : r.columns[i]? with
        | none => simp [extractCols, hp, hc]
        | some c => simp [hc] at hg
    | false =>
      have hfgs : f ∈ gs := by
        rcases List.mem_cons.mp hf with h1 | h1
        · rw [h1, hg] at hm; exact absurd hm (by simp)
        · exact h1
      obtain ⟨f', hf', hres⟩ := ih hfgs
      obtain ⟨i, c, hp, hc⟩ := fieldMissing_false t r g hg
      exact ⟨f', hf', by simp [extractCols, hp, hc, hres]⟩

theorem writeIndexes_error_of_missing (n : ByteStr) (rid : Int) (t : Table) (r : Record)
    (idx : Index) (f : ByteStr) (hf : f ∈ idx.fields) (hm : fieldMissing t r f = true) :
    ∀ (idxs : List Index), idx ∈ idxs → ∀ s0,
      ∃ f', fieldMissing t r f' = true ∧
        writeIndexes n rid t r idxs s0 = .error (.MissingColumn f') := by
  intro idxs
  induction idxs with
  | nil => intro hidx; simp at hidx
  | cons idx0 rest ih =>
    intro hidx s0
    by_cases h0 : ∃ g ∈ idx0.fields, fieldMissing t r g = true
    · obtain ⟨g, hg1, hg2⟩ := h0
      obtain ⟨f', hf', hres⟩ := extractCols_error_of_missing t r idx0.fields g hg1 hg2
      exact ⟨f', hf', by simp [writeIndexes, hres]⟩
    · have hall : ∀ g ∈ idx0.fields, fieldMissing t r g = false := by
        intro g hg
        by_contra hcon
        exact h0 ⟨g, hg, by simpa using hcon⟩
      obtain ⟨cols, hcols⟩ := extractCols_ok_of_not_missing t r idx0.fields hall
      have hidx' : idx ∈ rest := by
        rcases List.mem_cons.mp hidx with h1 | h1
        · exact absurd ⟨f, h1 ▸ hf, hm⟩ h0
        · exact h1
      obtain ⟨f', hf', hres⟩ := ih hidx' (kvSet s0 (.index n cols) (packI64 rid))
      exact ⟨f', hf', by simp [writeIndexes, hcols, hres]⟩

theorem get_table_meta_ok_of_readable (s : KVStore) (n : ByteStr)
    (h : metaReadable s n = true) :
    ∃ m s1, get_table_meta n s = .ok (m, s1) := by
  unfold metaReadable at h
  unfold get_table_meta
  cases hg : kvGet s (.tableMeta n) with
  | none => exact ⟨_, _, rfl⟩
  | some bs =>
    simp only [hg] at h ⊢
    cases hd : TableMetadata.from_bytes bs with
    | none => simp [hd] at h
    | some m => exact ⟨m, s, by simp [hd]⟩

/-- C8 counterexample: the claim asserts that an insert whose record
has no column for some primary-key field fails with `MissingColumn`;
but for `badPkTable` (pk field `"b"` absent from the schema) and a
record whose present column also type-mismatches, type validation runs
first and the insert fails with `MismatchedColumnType` instead. -/
theorem C8_counterexample :
    fieldMissing badPkTable badPkRecord [98] = true ∧
      [98] ∈ badPkTable.primary_key ∧
      insert [84] badPkRecord badPkStore =
        (badPkStore, some (.MismatchedColumnType .Int (.String [120]))) :=
  ⟨by decide, by decide, by decide⟩

/-- C8 (amended): for an existing table, provided the record passes
positional type validation and the stored table metadata (if present)
is decodable, an insert whose record has no column at the position of
some primary-key or secondary-index field fails with `MissingColumn`
naming such a field, and leaves the KV store unchanged. -/
theorem C8_missing_column (s : KVStore) (n : ByteStr) (t : Table) (r : Record)
    (ht : get_table_internal s n = .ok (some t))
    (hv : validateColumns t.fields r.columns = .ok ())
    (hmeta : metaReadable s n = true)
    (hmiss : ∃ f, (f ∈ t.primary_key ∨ ∃ idx ∈ t.indexes, f ∈ idx.fields) ∧
      fieldMissing t r f = true) :
    ∃ f', fieldMissing t r f' = true ∧
      insert n r s = (s, some (.MissingColumn f')) := by
  obtain ⟨f, hwhere, hm⟩ := hmiss
  by_cases hpk : ∃ g ∈ t.primary_key, fieldMissing t r g = true
  · obtain ⟨g, hg1, hg2⟩ := hpk
    obtain ⟨f', hf', hres⟩ := extractCols_error_of_missing t r t.primary_key g hg1 hg2
    exact ⟨f', hf', by simp [insert, insertBody, ht, hv, hres]⟩
  · have hallpk : ∀ g ∈ t.primary_key, fieldMissing t r g = false := by
      intro g hg
      by_contra hcon
      exact hpk ⟨g, hg, by simpa using hcon⟩
    obtain ⟨cols, hcols⟩ := extractCols_ok_of_not_missing t r t.primary_key hallpk
    have hidxf : ∃ idx ∈ t.indexes, f ∈ idx.fields := by
      rcases hwhere with h1 | h1
      · rw [hallpk f h1] at hm; exact absurd hm (by simp)
      · exact h1
    obtain ⟨idx, hidx, hfidx⟩ := hidxf
    obtain ⟨m, s1, hgm⟩ := get_table_meta_ok_of_readable s n hmeta
    obtain ⟨f', hf', hres⟩ := writeIndexes_error_of_missing n (u64ToI64 m.max_row_id)
      t r idx f hfidx hm t.indexes hidx
      (kvSet s1 (.primaryKey n cols) (packI64 (u64ToI64 m.max_row_id)))
    exact ⟨f', hf', by
      simp [insert, insertBody, ht, hv, hcols, hgm, TableMetadata.get_current_row_id, hres]⟩

/-- Witness for the amended C8: a validated record lacking the
primary-key field `"b"` fails with `MissingColumn`. -/
theorem C8_witness :
    ∃ f', fieldMissing badPkTable missingPkRecord f' = true ∧
      insert [84] missingPkRecord badPkStore = (badPkStore, some (.MissingColumn f')) :=
  C8_missing_column badPkStore [84] badPkTable missingPkRecord (by decide) (by decide)
    (by decide) ⟨[98], Or.inl (by decide), by decide⟩

/-! ## Row-id allocation lemmas (C7) -/

theorem u64ToI64_small (m : Nat) (h : m < 2 ^ 63) : u64ToI64 m = (m : Int) := by
  simp only [u64ToI64, if_pos h]

theorem insert_effects (n : ByteStr) (r : Record) (s s' : KVStore) (t : Table) (m : Nat)
    (ht : get_table_internal s n = .ok (some t))
    (hm : kvGet s (.tableMeta n) = some (TableMetadata.to_bytes ⟨n, m⟩) ∨
      (kvGet s (.tableMeta n) = none ∧ m = 0))
    (hins : insert n r s = (s', none)) :
    kvGet s' (.tableMeta n) = some (TableMetadata.to_bytes ⟨n, m + 1⟩) ∧
    kvGet s' (.row n (u64ToI64 m)) = some r.toRow.to_bytes ∧
    (∀ i : Int, i ≠ u64ToI64 m → kvGet s' (.row n i) = kvGet s (.row n i)) ∧
    kvGet s' (.table n) = kvGet s (.table n) := by
  obtain ⟨pk, meta, s1, s3, hex, hgm, hwi, hs'⟩ := insert_ok_unfold s s' n t r ht hins
  have hmeta : meta = ⟨n, m⟩ ∧ ∀ k, k ≠ DBKey.tableMeta n → kvGet s1 k = kvGet s k := by
    rcases hm with hm | ⟨hm, hm0⟩
    · unfold get_table_meta at hgm
      simp only [hm, meta_from_bytes_to_bytes, Except.ok.injEq, Prod.mk.injEq] at hgm
      exact ⟨hgm.1.symm, fun k _ => by rw [← hgm.2]⟩
    · subst hm0
      unfold get_table_meta at hgm
      simp only [hm, Except.ok.injEq, Prod.mk.injEq] at hgm
      refine ⟨hgm.1.symm, fun k hk => ?_⟩
      rw [← hgm.2]
      exact kvGet_kvSet_ne s _ k _ (Ne.symm hk)
  obtain ⟨hmeq, hfr1⟩ := hmeta
  subst hmeq
  refine ⟨?_, ?_, ?_, ?_⟩
  · rw [hs']
    exact kvGet_kvSet_same _ _ _
  · rw [hs', kvGet_kvSet_ne _ _ _ _ (by intro hh; cases hh)]
    exact kvGet_kvSet_same _ _ _
  · intro i hi
    rw [hs', kvGet_kvSet_ne _ _ _ _ (by intro hh; cases hh),
      kvGet_kvSet_ne _ _ _ _ (by intro hh; injection hh with h1 h2; exact hi h2.symm),
      writeIndexes_frame _ _ _ _ _ _ _ hwi _ (by intro nm cols hh; cases hh),
      kvGet_kvSet_ne _ _ _ _ (by intro hh; cases hh)]
    exact hfr1 _ (by intro hh; cases hh)
  · rw [hs', kvGet_kvSet_ne _ _ _ _ (by intro hh; cases hh),
      kvGet_kvSet_ne _ _ _ _ (by intro hh; cases hh),
      writeIndexes_frame _ _ _ _ _ _ _ hwi _ (by intro nm cols hh; cases hh),
      kvGet_kvSet_ne _ _ _ _ (by intro hh; cases hh)]
    exact hfr1 _ (by intro hh; cases hh)

theorem insertSeq_effects (n : ByteStr) (t : Table) :
    ∀ (rs : List Record) (s sK : KVStore) (m : Nat),
      get_table_internal s n = .ok (some t) →
      kvGet s (.tableMeta n) = some (TableMetadata.to_bytes ⟨n, m⟩) →
      m + rs.length ≤ 2 ^ 63 →
      insertSeq n rs s = some sK →
      kvGet sK (.tableMeta n) = some (TableMetadata.to_bytes ⟨n, m + rs.length⟩) ∧
      (∀ (k : Nat) (r : Record), rs[k]? = some r →
        kvGet sK (.row n ((m + k : Nat) : Int)) = some r.toRow.to_bytes) ∧
      (∀ i : Int, (i < (m : Int) ∨ ((m + rs.length : Nat) : Int) ≤ i) →
        kvGet sK (.row n i) = kvGet s (.row n i)) := by
  intro rs
  induction rs with
  | nil =>
    intro s sK m ht hmeta _ hseq
    simp only [insertSeq, Option.some.injEq] at hseq
    subst hseq
    exact ⟨by simpa using hmeta, by intro k r h; simp at h, fun i _ => rfl⟩
  | cons r rs' ih =>
    intro s sK m ht hmeta hbound hseq
    simp only [insertSeq] at hseq
    cases hstep : insert n r s with
    | mk s1 err =>
      rw [hstep] at hseq
      cases err with
      | some e => simp at hseq
      | none =>
        have hm_lt : m < 2 ^ 63 := by simp at hbound ⊢; omega
        obtain ⟨he1, he2, he3, he4⟩ :=
          insert_effects n r s s1 t m ht (Or.inl hmeta) hstep
        have ht1 : get_table_internal s1 n = .ok (some t) := by
          unfold get_table_internal at ht ⊢
          rw [he4]
          exact ht
        have hbound1 : (m + 1) + rs'.length ≤ 2 ^ 63 := by simp at hbound ⊢; omega
        obtain ⟨hc1, hc2, hc3⟩ := ih s1 sK (m + 1) ht1 he1 hbound1 hseq
        refine ⟨by simpa [Nat.add_assoc, Nat.add_comm 1 rs'.length] using hc1, ?_, ?_⟩
        · intro k r0 hk
          cases k with
          | zero =>
            simp only [List.getElem?_cons_zero, Option.some.injEq] at hk
            subst hk
            have := hc3 (m : Int) (Or.inl (by push_cast; omega))
            rw [Nat.add_zero, this, ← u64ToI64_small m hm_lt]
            exact he2
          | succ k =>
            simp only [List.getElem?_cons_succ] at hk
            have := hc2 k r0 hk
            have harith : ((m + (k + 1) : Nat) : Int) = ((m + 1 + k : Nat) : Int) := by
              push_cast; omega
            rw [harith]
            exact this
        · intro i hi
          have hi' : i < ((m + 1 : Nat) : Int) ∨ (((m + 1) + rs'.length : Nat) : Int) ≤ i := by
            rcases hi with hi | hi
            · left; push_cast at hi ⊢; omega
            · right; push_cast at hi ⊢; simp at hi ⊢; omega
          rw [hc3 i hi']
          refine he3 i ?_
          rw [u64ToI64_small m hm_lt]
          rcases hi with hi | hi
          · intro hh; rw [hh] at hi; omega
          · intro hh
            rw [hh] at hi
            push_cast at hi
            simp at hi
            omega

/-- C7: for `K ≥ 1` successful retriless inserts into an existing,
initially empty table (no metadata key, no row keys), the metadata is
lazily created with `max_row_id = 0` on the first insert, the assigned
row-id values are exactly `0, 1, …, K-1` in order (the `k`-th record's
row payload sits at row key `k`, and no row key outside `[0, K)`
exists), and the persisted `max_row_id` equals `K` afterwards.  (The
bound `K ≤ 2 ^ 63` keeps the `u64`-to-`i64` cast of the row-id
counter from wrapping.) -/
theorem C7_row_id_allocation (n : ByteStr) (t : Table) (rs : List Record) (s0 sK : KVStore)
    (hlen : 0 < rs.length) (hbound : rs.length ≤ 2 ^ 63)
    (ht : get_table_internal s0 n = .ok (some t))
    (hmeta0 : kvGet s0 (.tableMeta n) = none)
    (hrows0 : ∀ i : Int, kvGet s0 (.row n i) = none)
    (hseq : insertSeq n rs s0 = some sK) :
    get_table_meta n s0 =
      .ok (TableMetadata.new n, kvSet s0 (.tableMeta n) (TableMetadata.new n).to_bytes) ∧
    (TableMetadata.new n).max_row_id = 0 ∧
    kvGet sK (.tableMeta n) = some (TableMetadata.to_bytes ⟨n, rs.length⟩) ∧
    (∀ (k : Nat) (r : Record), rs[k]? = some r →
      kvGet sK (.row n (k : Int)) = some r.toRow.to_bytes) ∧
    (∀ i : Int, (i < 0 ∨ (rs.length : Int) ≤ i) → kvGet sK (.row n i) = none) := by
  have hlazy : get_table_meta n s0 =
      .ok (TableMetadata.new n, kvSet s0 (.tableMeta n) (TableMetadata.new n).to_bytes) := by
    unfold get_table_meta
    simp [hmeta0]
  cases rs with
  | nil => simp at hlen
  | cons r rs' =>
    simp only [insertSeq] at hseq
    cases hstep : insert n r s0 with
    | mk s1 err =>
      rw [hstep] at hseq
      cases err with
      | some e => simp at hseq
      | none =>
        obtain ⟨he1, he2, he3, he4⟩ :=
          insert_effects n r s0 s1 t 0 ht (Or.inr ⟨hmeta0, rfl⟩) hstep
        have ht1 : get_table_internal s1 n = .ok (some t) := by
          unfold get_table_internal at ht ⊢
          rw [he4]
          exact ht
        have hbound1 : 1 + rs'.length ≤ 2 ^ 63 := by simp at hbound ⊢; omega
        obtain ⟨hc1, hc2, hc3⟩ :=
          insertSeq_effects n t rs' s1 sK 1 ht1 (by simpa using he1) hbound1 hseq
        refine ⟨hlazy, rfl, by simpa [Nat.add_comm 1 rs'.length] using hc1, ?_, ?_⟩
        · intro k r0 hk
          cases k with
          | zero =>
            simp only [List.getElem?_cons_zero, Option.some.injEq] at hk
            subst hk
            have := hc3 0 (Or.inl (by norm_num))
            rw [Nat.cast_zero, this]
            have h0 : u64ToI64 0 = (0 : Int) := by simp [u64ToI64]
            rw [← h0]
            exact he2
          | succ k =>
            simp only [List.getElem?_cons_succ] at hk
            have := hc2 k r0 hk
            have harith : (((k + 1 : Nat)) : Int) = ((1 + k : Nat) : Int) := by
              push_cast; omega
            rw [harith]
            exact this
        · intro i hi
          have hi' : i < ((1 : Nat) : Int) ∨ ((1 + rs'.length : Nat) : Int) ≤ i := by
            rcases hi with hi | hi
            · left; push_cast at hi ⊢; omega
            · right; push_cast at hi ⊢; simp at hi ⊢; omega
          rw [hc3 i hi']
          have hne0 : i ≠ u64ToI64 0 := by
            have h0 : u64ToI64 0 = (0 : Int) := by simp [u64ToI64]
            rw [h0]
            rcases hi with hi | hi
            · omega
            · intro hh
              rw [hh] at hi
              push_cast at hi
              simp at hi
              omega
          rw [he3 i hne0]
          exact hrows0 i

/-- Witness for C7: two inserts into the fresh `Person` table. -/
theorem C7_witness :
    get_table_meta [80, 101, 114, 115, 111, 110] personStore =
      .ok (TableMetadata.new [80, 101, 114, 115, 111, 110],
        kvSet personStore (.tableMeta [80, 101, 114, 115, 111, 110])
          (TableMetadata.new [80, 101, 114, 115, 111, 110]).to_bytes) ∧
    (TableMetadata.new [80, 101, 114, 115, 111, 110]).max_row_id = 0 ∧
    kvGet personStore2 (.tableMeta [80, 101, 114, 115, 111, 110]) =
      some (TableMetadata.to_bytes ⟨[80, 101, 114, 115, 111, 110], 2⟩) ∧
    (∀ (k : Nat) (r : Record), [johnRecord, alRecord][k]? = some r →
      kvGet personStore2 (.row [80, 101, 114, 115, 111, 110] (k : Int)) =
        some r.toRow.to_bytes) ∧
    (∀ i : Int, (i < 0 ∨ ((2 : Nat) : Int) ≤ i) →
      kvGet personStore2 (.row [80, 101, 114, 115, 111, 110] i) = none) :=
  C7_row_id_allocation [80, 101, 114, 115, 111, 110] personTable [johnRecord, alRecord]
    personStore personStore2 (by decide) (by norm_num) (by decide) (by decide)
    (fun i => rfl) (by decide)

/-! ## Lexicographic order lemmas (C5) -/

theorem bytesLt_irrefl (a : ByteStr) : bytesLt a a = false := by
  induction a with
  | nil => rfl
  | cons a0 as ih => simp [bytesLt, ih]

theorem bytesLt_trans : ∀ (a b c : ByteStr), bytesLt a b = true → bytesLt b c = true →
    bytesLt a c = true := by
  intro a
  induction a with
  | nil =>
    intro b c hab hbc
    cases b with
    | nil => simp [bytesLt] at hab
    | cons b0 bs =>
      cases c with
      | nil => simp [bytesLt] at hbc
      | cons c0 cs => simp [bytesLt]
  | cons a0 as ih =>
    intro b c hab hbc
    cases b with
    | nil => simp [bytesLt] at hab
    | cons b0 bs =>
      cases c with
      | nil => simp [bytesLt] at hbc
      | cons c0 cs =>
        simp only [bytesLt, Bool.or_eq_true, Bool.and_eq_true, beq_iff_eq,
          decide_eq_true_eq] at hab hbc ⊢
        rcases hab with h1 | ⟨h1, h2⟩ <;> rcases hbc with h3 | ⟨h3, h4⟩
        · exact Or.inl (by omega)
        · exact Or.inl (by omega)
        · exact Or.inl (by omega)
        · exact Or.inr ⟨by omega, ih bs cs h2 h4⟩

theorem bytesLt_asymm (a b : ByteStr) (h : bytesLt a b = true) : bytesLt b a = false := by
  cases hb : bytesLt b a with
  | false => rfl
  | true =>
    have := bytesLt_trans a b a h hb
    rw [bytesLt_irrefl] at this
    exact absurd this (by simp)

theorem bytesLe_of_lt (a b : ByteStr) (h : bytesLt a b = true) : bytesLe a b = true := by
  simp [bytesLe, h]

theorem bytesLt_of_le_of_lt (a b c : ByteStr) (h1 : bytesLe a b = true)
    (h2 : bytesLt b c = true) : bytesLt a c = true := by
  rcases Bool.or_eq_true _ _ ▸ h1 with h | h
  · exact bytesLt_trans a b c h h2
  · rwa [beq_iff_eq.mp h]

theorem bytesLt_of_lt_of_le (a b c : ByteStr) (h1 : bytesLt a b = true)
    (h2 : bytesLe b c = true) : bytesLt a c = true := by
  rcases Bool.or_eq_true _ _ ▸ h2 with h | h
  · exact bytesLt_trans a b c h1 h
  · rwa [← beq_iff_eq.mp h]

theorem bytesLt_append (a c : ByteStr) (h : c ≠ []) : bytesLt a (a ++ c) = true := by
  induction a with
  | nil =>
    cases c with
    | nil => exact absurd rfl h
    | cons c0 cs => simp [bytesLt]
  | cons a0 as ih => simp [bytesLt, ih]

theorem bytesLt_ext : ∀ (l k : ByteStr), bytesLt l k = true → extendsKey k l = false →
    bytesLt (l ++ [255]) k = true := by
  intro l
  induction l with
  | nil =>
    intro k hlt hext
    cases k with
    | nil => simp [bytesLt] at hlt
    | cons k0 ks => simp [extendsKey] at hext
  | cons a as ih =>
    intro k hlt hext
    cases k with
    | nil => simp [bytesLt] at hlt
    | cons b bs =>
      simp only [bytesLt, Bool.or_eq_true, Bool.and_eq_true, beq_iff_eq,
        decide_eq_true_eq] at hlt
      rcases hlt with h1 | ⟨h1, h2⟩
      · simp [bytesLt, h1]
      · subst h1
        have hext' : extendsKey bs as = false := by
          simpa [extendsKey] using hext
        simp [bytesLt, ih bs h2 hext']

/-! ## Page lemmas for `full_scan` (C5) -/

theorem getLast?_mem (l : List α) (a : α) (h : l.getLast? = some a) : a ∈ l := by
  cases l with
  | nil => simp at h
  | cons x xs =>
    rw [List.getLast?_eq_getLast (x :: xs) (by simp)] at h
    injection h with h'
    rw [← h']
    exact List.getLast_mem (by simp)

theorem filter_gt_getLast_take :
    ∀ (L : List (ByteStr × ByteStr)) (n : Nat), 0 < n →
      List.Pairwise (fun a b => bytesLt a.1 b.1 = true) L →
      ∀ (last : ByteStr × ByteStr), (L.take n).getLast? = some last →
        L.filter (fun kv => bytesLt last.1 kv.1) = L.drop n := by
  intro L
  induction L with
  | nil => intro n _ _ last h; simp at h
  | cons x xs ih =>
    intro n hn hp last h
    obtain ⟨hhead, htail⟩ := List.pairwise_cons.mp hp
    cases n with
    | zero => simp at hn
    | succ n' =>
      cases n' with
      | zero =>
        simp only [List.take_succ_cons, List.take_zero, List.getLast?_singleton,
          Option.some.injEq] at h
        subst h
        simp only [List.drop_succ_cons, List.drop_zero, List.filter_cons,
          bytesLt_irrefl]
        exact List.filter_eq_self.mpr fun a ha => hhead a ha
      | succ n'' =>
        cases hxs : xs.take (n'' + 1) with
        | nil =>
          have hxsnil : xs = [] := by
            rcases List.take_eq_nil_iff.mp hxs with h1 | h1
            · simp at h1
            · exact h1
          subst hxsnil
          simp only [List.take_succ_cons, hxs, List.getLast?_singleton,
            Option.some.injEq] at h
          subst h
          simp [List.filter_cons, bytesLt_irrefl]
        | cons y ys =>
          have h2 : (xs.take (n'' + 1)).getLast? = some last := by
            rw [List.take_succ_cons, hxs] at h
            rw [hxs]
            simpa [List.getLast?_cons_cons] using h
          have hlast_mem : last ∈ xs :=
            List.take_subset (n'' + 1) xs (getLast?_mem _ _ h2)
          have hxlast : bytesLt x.1 last.1 = true := hhead last hlast_mem
          have hfx : bytesLt last.1 x.1 = false := bytesLt_asymm _ _ hxlast
          simp only [List.filter_cons, hfx, List.drop_succ_cons]
          exact ih (n'' + 1) (by omega) htail last h2

theorem filter_advance (s : ByteStore) (start e : ByteStr) (last : ByteStr × ByteStr)
    (hext : NoKeyExtends s = true) (hmem : last ∈ s) (hin : inRange start e last.1 = true) :
    (s.filter fun kv => inRange (last.1 ++ [255]) e kv.1) =
      (s.filter fun kv => inRange start e kv.1).filter fun kv => bytesLt last.1 kv.1 := by
  rw [List.filter_filter]
  apply List.filter_congr
  intro kv hkv
  have hext_k : extendsKey kv.1 last.1 = false := by
    have h1 := List.all_eq_true.mp hext last hmem
    have h2 := List.all_eq_true.mp h1 kv hkv
    simpa using h2
  have hstart_le : bytesLe start last.1 = true := (Bool.and_eq_true _ _ ▸ hin).1
  unfold inRange
  cases h1 : bytesLt kv.1 e with
  | false => simp [h1]
  | true =>
    cases h2 : bytesLt last.1 kv.1 with
    | true =>
      have hlt : bytesLt (last.1 ++ [255]) kv.1 = true := bytesLt_ext last.1 kv.1 h2 hext_k
      have hs : bytesLe start kv.1 = true :=
        bytesLe_of_lt _ _ (bytesLt_of_le_of_lt _ _ _ hstart_le h2)
      simp [h1, h2, hs, bytesLe_of_lt _ _ hlt]
    | false =>
      have hle : bytesLe (last.1 ++ [255]) kv.1 = false := by
        cases hb : bytesLe (last.1 ++ [255]) kv.1 with
        | false => rfl
        | true =>
          have := bytesLt_of_lt_of_le last.1 _ kv.1
            (bytesLt_append last.1 [255] (by simp)) hb
          rw [h2] at this
          exact absurd this (by simp)
      simp [h1, h2, hle]

theorem full_scanF_complete :
    ∀ (fuel : Nat) (s : ByteStore) (start e : ByteStr),
      StoreSorted s → NoKeyExtends s = true →
      (s.filter fun kv => inRange start e kv.1).length + 1 ≤ fuel →
      full_scanF fuel s start e = some (s.filter fun kv => inRange start e kv.1) := by
  intro fuel
  induction fuel with
  | zero => intro s start e _ _ hf; omega
  | succ fuel ih =>
    intro s start e hsort hext hf
    have hscan : scan s start e =
        (s.filter fun kv => inRange start e kv.1).take MAX_SCAN_SIZE := rfl
    cases hgl : (scan s start e).getLast? with
    | none =>
      have hnil : (s.filter fun kv => inRange start e kv.1) = [] := by
        rw [hscan] at hgl
        rcases List.take_eq_nil_iff.mp (List.getLast?_eq_none_iff.mp hgl) with h | h
        · simp [MAX_SCAN_SIZE] at h
        · exact h
      simp only [full_scanF, hgl, hnil]
    | some last =>
      have hne : scan s start e ≠ [] := by
        intro hh
        rw [hh] at hgl
        simp at hgl
      have hmem_filter : last ∈ (s.filter fun kv => inRange start e kv.1) := by
        refine List.take_subset MAX_SCAN_SIZE _ (getLast?_mem _ _ ?_)
        rw [← hscan]
        exact hgl
      have hmem_s : last ∈ s := (List.mem_filter.mp hmem_filter).1
      have hin : inRange start e last.1 = true := (List.mem_filter.mp hmem_filter).2
      have hkey : (s.filter fun kv => inRange (last.1 ++ [255]) e kv.1)
          = (s.filter fun kv => inRange start e kv.1).drop MAX_SCAN_SIZE := by
        rw [filter_advance s start e last hext hmem_s hin]
        exact filter_gt_getLast_take _ MAX_SCAN_SIZE (by norm_num [MAX_SCAN_SIZE])
          (hsort.filter _) last (hscan ▸ hgl)
      have hnenil : (s.filter fun kv => inRange start e kv.1) ≠ [] := by
        intro hh
        rw [hscan, hh] at hne
        simp at hne
      have hpos : 0 < (s.filter fun kv => inRange start e kv.1).length :=
        List.length_pos.mpr hnenil
      have hfuel' : (s.filter fun kv => inRange (last.1 ++ [255]) e kv.1).length + 1 ≤ fuel := by
        rw [hkey, List.length_drop]
        simp only [MAX_SCAN_SIZE] at *
        omega
      have hrec := ih s (last.1 ++ [255]) e hsort hext hfuel'
      simp only [full_scanF, hgl, hrec, hkey]
      rw [hscan, List.take_append_drop]

/-- C5 counterexample: the claim asserts `full_scan` yields all N
in-range pairs; but on a sorted 21-key store whose 21st key `[19, 0]`
strictly extends the 20th key `[19]` (the last key of the first page),
advancing the start to `[19] ++ [0xff]` skips `[19, 0]`: `full_scan`
yields 20 pairs while 21 keys lie in `[start, end)`. -/
theorem C5_counterexample :
    StoreSorted skipStore ∧
      (skipStore.filter fun kv => inRange [] [255] kv.1).length = 21 ∧
      (full_scan skipStore [] [255]).map List.length = some 20 :=
  ⟨by decide, by decide, by decide⟩

/-- C5 (amended): for every sorted store in which no key strictly
extends another key (prefix-free key sets, as produced by fixed-arity
tuple packing), `full_scan(start, end)` — consuming pages via the
bounded scan and advancing the start to the last returned key extended
by one `0xff` byte — terminates and yields exactly the in-range
`(key, value)` pairs, in strictly ascending key order, with no
omission and no duplication. -/
theorem C5_full_scan_complete (s : ByteStore) (start e : ByteStr)
    (hsort : StoreSorted s) (hext : NoKeyExtends s = true) :
    full_scan s start e = some (s.filter fun kv => inRange start e kv.1) ∧
      List.Pairwise (fun a b => bytesLt a.1 b.1 = true)
        (s.filter fun kv => inRange start e kv.1) := by
  refine ⟨?_, hsort.filter _⟩
  apply full_scanF_complete
  · exact hsort
  · exact hext
  · have := List.length_filter_le (fun kv => inRange start e kv.1) s
    omega

/-- Witness for the amended C5 on a small sorted, extension-free
store. -/
theorem C5_witness :
    full_scan smallStore [] [255] =
        some (smallStore.filter fun kv => inRange [] [255] kv.1) ∧
      List.Pairwise (fun a b => bytesLt a.1 b.1 = true)
        (smallStore.filter fun kv => inRange [] [255] kv.1) :=
  C5_full_scan_complete smallStore [] [255] (by decide) (by decide)

end SqlLayer
